import Mathlib

/-!
# UART character driver (GPIO_Driver.c): shallow embedding and verification

The driver is a Linux kernel module for the PL011 UART of the Raspberry Pi.
It owns three globals (`uart_proc`, `uart_buffer`, `uart_registers`), two
polling routines (`uart_send_char`, `uart_receive_char`), the two /proc
handlers (`uart_write`, `uart_read`) and the module entry points
(`uart_driver_init`, `uart_driver_exit`).

Modelling conventions.

* A `char` is a byte, `Fin 256`.  The target is ARM (and the kernel is built
  with unsigned `char`), so the conversion `char -> unsigned int` performed by
  the store to the data register is the identity on the byte value, and the
  conversion `unsigned int -> char` performed by `uart_receive_char` keeps the
  low eight bits.
* The memory-mapped registers are `volatile`: every read observes whatever the
  device presents at that moment.  The device is therefore an input of the
  model: `Hw.fr` lists the words the flag register presents on successive
  reads and `Hw.dr` the words the data register presents on successive reads.
  A busy-wait loop that uses up all flag observations without seeing the
  awaited bit clear has not terminated: the model returns `none`.  A read of
  the data register takes the next word of `Hw.dr`; the theorems about reads
  name that word.
* Every register access is recorded, in program order, as an `Access`.
* The kernel primitives (`ioremap`, `iounmap`, `proc_create`, `proc_remove`,
  `copy_from_user`, `copy_to_user`, `printk`) are not part of the driver; they
  are modelled by their documented contracts.
* The entry points are `static` and reached only through `module_init` and
  `module_exit`: the loader runs `uart_driver_init` once per load, on statics
  at their initialisers, and `uart_driver_exit` once per unload of a live
  module (`loader_step`).
-/

namespace UartDriver

/-- A C `char` of the target: one byte. -/
abbrev Byte := Fin 256

/-! ## Constants of the source -/

/-- Max buffer size for user-space input (`#define UART_MAX_USER_SIZE 256`). -/
def UART_MAX_USER_SIZE : Nat := 256

/-- UART base address for RPi 3. -/
def BCM2837_UART_ADDRESS : Nat := 0x3F201000

/-- UART base address for RPi 4 (defined by the source, not used by it). -/
def BCM2711_UART_ADDRESS : Nat := 0xFE201000

/-- Data Register (Read/Write). -/
def UART_DR : Nat := 0x00

/-- Flag Register (Check TX/RX status). -/
def UART_FR : Nat := 0x18

/-- Modelled from the spec: the kernel constant `PAGE_SIZE` is not defined by
the driver; the window length is one hardware page, 4096 bytes on the target. -/
def PAGE_SIZE : Nat := 4096

/-- Kernel errno `EFAULT` (bad address). -/
def EFAULT : Int := 14

/-- Kernel errno `ENOMEM` (out of memory). -/
def ENOMEM : Int := 12

/-- Byte offset, inside the mapped window, of the word addressed by
`uart_registers + (off / 4)`; `uart_registers` is an `unsigned int *`, so the
pointer moves in steps of four bytes. -/
def regOffset (off : Nat) : Nat := 4 * (off / 4)

/-! ## Register bus -/

/-- One access to the mapped register window: the byte offset of the word and
the word read or written. -/
inductive Access where
  | rd (off : Nat) (val : Nat)
  | wr (off : Nat) (val : Nat)
  deriving DecidableEq, Repr

/-- The device as seen through the window: the words the flag register and the
data register present on successive reads. -/
structure Hw where
  fr : List Nat
  dr : List Nat
  deriving DecidableEq, Repr

/-- The busy-wait `while (*(uart_registers + (UART_FR / 4)) & (1 << bit));`.
Each iteration reads the flag register once; the loop exits at the first word
whose masked value is zero.  Returns the reads performed and the flag
observations still to come, `none` when the loop never exits. -/
def wait_flag_clear (bit : Nat) : List Nat → Option (List Access × List Nat)
  | [] => none
  | w :: fr =>
    if w &&& (1 <<< bit) ≠ 0 then
      match wait_flag_clear bit fr with
      | none => none
      | some (t, fr') => some (Access.rd (regOffset UART_FR) w :: t, fr')
    else
      some ([Access.rd (regOffset UART_FR) w], fr)

/-- Function to send a character over UART:
wait until TX buffer is not full (bit 5), then write the character to the
Data Register. -/
def uart_send_char (c : Byte) (hw : Hw) : Option (List Access × Hw) :=
  match wait_flag_clear 5 hw.fr with
  | none => none
  | some (t, fr') =>
    some (t ++ [Access.wr (regOffset UART_DR) c.val], { hw with fr := fr' })

/-- Conversion `unsigned int -> char`: the low eight bits. -/
def toChar (w : Nat) : Byte := ⟨w % 256, Nat.mod_lt w (by decide)⟩

/-- Function to receive a character over UART:
wait until RX buffer has data (bit 4 clear), then read the Data Register. -/
def uart_receive_char (hw : Hw) : Option (List Access × Byte × Hw) :=
  match wait_flag_clear 4 hw.fr with
  | none => none
  | some (t, fr') =>
    match hw.dr with
    | [] => none
    | w :: dr' =>
      some (t ++ [Access.rd (regOffset UART_DR) w], toChar w, { fr := fr', dr := dr' })

/-! ## Kernel memory primitives -/

/-- The libc/kernel `memset(s, c, n)`: the first `n` bytes of `s` become `c`. -/
def memset (s : List Byte) (c : Byte) (n : Nat) : List Byte :=
  List.replicate n c ++ s.drop n

/-- Modelled from the spec: the trusted-boundary primitive `copy_from_user(dst,
src, n)` of the kernel.  `src` lists the bytes readable at the user pointer.
Returns the number of bytes that could not be copied (zero on success) and the
new content of `dst`; on a fault the readable bytes are copied and the rest of
the requested range is zero-filled. -/
def copy_from_user (dst : List Byte) (src : List Byte) (n : Nat) : Nat × List Byte :=
  if n ≤ src.length then (0, src.take n ++ dst.drop n)
  else (n - src.length, src ++ List.replicate (n - src.length) 0 ++ dst.drop n)

/-- Modelled from the spec: the trusted-boundary primitive `copy_to_user(dst,
src, n)` of the kernel.  `dst` lists the bytes writable at the user pointer.
Returns the number of bytes that could not be copied (zero on success) and the
new content of the user memory. -/
def copy_to_user (dst : List Byte) (src : List Byte) (n : Nat) : Nat × List Byte :=
  if n ≤ dst.length then (0, src.take n ++ dst.drop n)
  else (n - dst.length, src.take dst.length)

/-- The bytes `printk` reads for a `%s` argument: up to the first NUL. -/
def cstr (s : List Byte) : List Byte := s.takeWhile (fun b => b ≠ 0)

/-! ## The /proc handlers -/

/-- Outcome of a call of `uart_write`. -/
structure WriteResult where
  /-- the `ssize_t` returned -/
  ret : Int
  /-- the register accesses performed, in order -/
  bus : List Access
  /-- the strings handed to `printk` -/
  printed : List (List Byte)
  /-- the global `uart_buffer` after the call -/
  uart_buffer : List Byte
  /-- the device observations not yet consumed -/
  hw : Hw
  deriving DecidableEq, Repr

/-- The loop `for (size_t i = 0; i < size; i++) uart_send_char(uart_buffer[i]);`
run over the index values `i` in order. -/
def send_each (uart_buffer : List Byte) : List Nat → Hw → Option (List Access × Hw)
  | [], hw => some ([], hw)
  | i :: is, hw =>
    match uart_send_char (uart_buffer.getD i 0) hw with
    | none => none
    | some (t, hw1) =>
      match send_each uart_buffer is hw1 with
      | none => none
      | some (t2, hw2) => some (t ++ t2, hw2)

/-- Function to write data to UART via /proc file.  `uart_buffer` is the
content of the global buffer on entry, `user` the bytes readable at the user
pointer, `size` the requested size. -/
def uart_write (uart_buffer : List Byte) (user : List Byte) (size : Nat) (hw : Hw) :
    Option WriteResult :=
  let size := if size > UART_MAX_USER_SIZE then UART_MAX_USER_SIZE else size
  let uart_buffer := memset uart_buffer 0 (UART_MAX_USER_SIZE + 1)
  let r := copy_from_user uart_buffer user size
  if r.1 ≠ 0 then
    some { ret := -EFAULT, bus := [], printed := [], uart_buffer := r.2, hw := hw }
  else
    match send_each r.2 (List.range size) hw with
    | none => none
    | some (t, hw') =>
      some { ret := (size : Int), bus := t, printed := [cstr r.2], uart_buffer := r.2, hw := hw' }

/-- Outcome of a call of `uart_read`. -/
structure ReadResult where
  /-- the `ssize_t` returned -/
  ret : Int
  /-- the register accesses performed, in order -/
  bus : List Access
  /-- the user memory at the destination pointer after the call -/
  user : List Byte
  /-- the device observations not yet consumed -/
  hw : Hw
  deriving DecidableEq, Repr

/-- Function to read data from UART via /proc file.  `user` is the memory
writable at the destination pointer, `size` the requested size (unused by the
source). -/
def uart_read (user : List Byte) (_size : Nat) (hw : Hw) : Option ReadResult :=
  match uart_receive_char hw with
  | none => none
  | some (t, c, hw') =>
    let recv_buffer : List Byte := [c, 0]
    let r := copy_to_user user recv_buffer 1
    if r.1 ≠ 0 then
      some { ret := -EFAULT, bus := t, user := r.2, hw := hw' }
    else
      some { ret := 1, bus := t, user := r.2, hw := hw' }

/-! ## Module entry points -/

/-- A call of a kernel primitive made by the entry points. -/
inductive Call where
  | printk
  | ioremap (phys : Nat) (len : Nat) (ret : Nat)
  | iounmap (addr : Nat)
  | proc_create (ret : Nat)
  | proc_remove (entry : Nat)
  deriving DecidableEq, Repr

/-- The resources the kernel holds for the module: the live I/O windows and the
live /proc entries, each named by the pointer the kernel returned. -/
structure Kernel where
  mapped : List Nat
  entries : List Nat
  deriving DecidableEq, Repr

/-- The pointer globals of the driver; `0` is `NULL`. -/
structure Globals where
  uart_proc : Nat
  uart_registers : Nat
  deriving DecidableEq, Repr

/-- Modelled from the spec: `ioremap` returning `ret`; a non-NULL result is a
new live window. -/
def ioremap (ret : Nat) (k : Kernel) : Kernel :=
  if ret = 0 then k else { k with mapped := ret :: k.mapped }

/-- Modelled from the spec: `iounmap(addr)` releases the window `addr`. -/
def iounmap (addr : Nat) (k : Kernel) : Kernel :=
  { k with mapped := k.mapped.erase addr }

/-- Modelled from the spec: `proc_create` returning `ret`; a non-NULL result is
a new live /proc entry. -/
def proc_create (ret : Nat) (k : Kernel) : Kernel :=
  if ret = 0 then k else { k with entries := ret :: k.entries }

/-- Modelled from the spec: `proc_remove(entry)` removes the /proc entry. -/
def proc_remove (entry : Nat) (k : Kernel) : Kernel :=
  { k with entries := k.entries.erase entry }

/-- Outcome of a call of an entry point. -/
structure LifeResult where
  /-- the `int` returned (`0` for the `void` exit function) -/
  ret : Int
  /-- the primitive calls made, in order -/
  calls : List Call
  /-- the pointer globals after the call -/
  g : Globals
  /-- the kernel resources after the call -/
  k : Kernel
  deriving DecidableEq, Repr

/-- Module initialization function.  `map_ret` is what `ioremap` returns and
`create_ret` what `proc_create` returns (when it is called). -/
def uart_driver_init (g : Globals) (k : Kernel) (map_ret create_ret : Nat) : LifeResult :=
  let calls := [Call.printk]
  let calls := calls ++ [Call.ioremap BCM2837_UART_ADDRESS PAGE_SIZE map_ret]
  let k := ioremap map_ret k
  let g := { g with uart_registers := map_ret }
  if g.uart_registers = 0 then
    { ret := -ENOMEM, calls := calls ++ [Call.printk], g := g, k := k }
  else
    let calls := calls ++ [Call.printk]
    let calls := calls ++ [Call.proc_create create_ret]
    let k := proc_create create_ret k
    let g := { g with uart_proc := create_ret }
    if g.uart_proc = 0 then
      let calls := calls ++ [Call.iounmap g.uart_registers]
      let k := iounmap g.uart_registers k
      { ret := -ENOMEM, calls := calls ++ [Call.printk], g := g, k := k }
    else
      { ret := 0, calls := calls ++ [Call.printk], g := g, k := k }

/-- Module exit function. -/
def uart_driver_exit (g : Globals) (k : Kernel) : LifeResult :=
  let calls := [Call.printk]
  let calls := calls ++ [Call.proc_remove g.uart_proc]
  let k := proc_remove g.uart_proc k
  let calls := calls ++ [Call.iounmap g.uart_registers]
  let k := iounmap g.uart_registers k
  { ret := 0, calls := calls ++ [Call.printk], g := g, k := k }

/-! ## Observations on traces and states -/

/-- Number of flag observations in which the transmit-buffer-full bit (bit 5)
is clear: the number of bytes the device will accept. -/
def txReadyCount (fr : List Nat) : Nat :=
  fr.countP (fun w => w &&& (1 <<< 5) == 0)

/-- The register writes of a trace, as pairs of byte offset and word written,
in order. -/
def writes : List Access → List (Nat × Nat)
  | [] => []
  | Access.wr off v :: t => (off, v) :: writes t
  | Access.rd _ _ :: t => writes t

/-- The words obtained by the reads of the data register in a trace, in order. -/
def dataReads : List Access → List Nat
  | [] => []
  | Access.rd off v :: t => if off = regOffset UART_DR then v :: dataReads t else dataReads t
  | Access.wr _ _ :: t => dataReads t

/-- Handshake discipline of a trace: every write goes to the data register and
the access immediately before it is a read of the flag register whose
transmit-buffer-full bit is clear.  The first argument is the access that
precedes the trace, if any. -/
def gated : Option Access → List Access → Bool
  | _, [] => true
  | prev, Access.wr off v :: t =>
    (match prev with
      | some (Access.rd o w) => o == regOffset UART_FR && w &&& (1 <<< 5) == 0
      | _ => false)
    && off == regOffset UART_DR && gated (some (Access.wr off v)) t
  | _, Access.rd off w :: t => gated (some (Access.rd off w)) t

/-- Contents of the global `uart_buffer` reachable by running the driver: the
static initialiser `{0}` of the 257-byte array, and the content left by any
call of `uart_write` that returned (`uart_read` does not touch the buffer). -/
inductive Reachable : List Byte → Prop where
  | init : Reachable (List.replicate (UART_MAX_USER_SIZE + 1) 0)
  | write (uart_buffer user : List Byte) (size : Nat) (hw : Hw) (r : WriteResult) :
      Reachable uart_buffer → uart_write uart_buffer user size hw = some r →
      Reachable r.uart_buffer

/-- The resource primitives among the calls of an entry point: everything but
the diagnostic `printk`. -/
def primitives (calls : List Call) : List Call :=
  calls.filter (fun c => c ≠ Call.printk)

/-! ## Module lifecycle -/

theorem wait_flag_clear_ready (bit : Nat) (pre : List Nat) (w : Nat) (post : List Nat)
    (hpre : ∀ x ∈ pre, x &&& (1 <<< bit) ≠ 0) (hw : w &&& (1 <<< bit) = 0) :
    wait_flag_clear bit (pre ++ w :: post)
      = some (pre.map (Access.rd (regOffset UART_FR)) ++ [Access.rd (regOffset UART_FR) w], post) := by
  induction pre with
  | nil => simp [wait_flag_clear, hw]
  | cons x xs ih =>
    have hx : x &&& (1 <<< bit) ≠ 0 := hpre x (by simp)
    have hxs : ∀ y ∈ xs, y &&& (1 <<< bit) ≠ 0 := fun y hy => hpre y (by simp [hy])
    simp [wait_flag_clear, hx, ih hxs]

theorem wait_flag_clear_some (bit : Nat) (fr : List Nat) (t : List Access) (fr' : List Nat)
    (h : wait_flag_clear bit fr = some (t, fr')) :
    ∃ pre w, fr = pre ++ w :: fr' ∧ (∀ x ∈ pre, x &&& (1 <<< bit) ≠ 0) ∧ w &&& (1 <<< bit) = 0
      ∧ t = pre.map (Access.rd (regOffset UART_FR)) ++ [Access.rd (regOffset UART_FR) w] := by
  induction fr generalizing t with
  | nil => simp [wait_flag_clear] at h
  | cons x xs ih =>
    by_cases hx : x &&& (1 <<< bit) = 0
    · simp [wait_flag_clear, hx] at h
      obtain ⟨rfl, rfl⟩ := h
      exact ⟨[], x, by simp, by simp, hx, by simp⟩
    · cases hrec : wait_flag_clear bit xs with
      | none => simp [wait_flag_clear, hx, hrec] at h
      | some p =>
        obtain ⟨t1, fr1⟩ := p
        simp [wait_flag_clear, hx, hrec] at h
        obtain ⟨rfl, rfl⟩ := h
        obtain ⟨pre, w, hfr, hpre, hw, ht⟩ := ih t1 hrec
        refine ⟨x :: pre, w, by simp [hfr], ?_, hw, by simp [ht]⟩
        intro y hy
        rcases List.mem_cons.mp hy with rfl | hy
        · exact hx
        · exact hpre y hy

theorem wait_flag_clear_none (bit : Nat) (fr : List Nat) (h : wait_flag_clear bit fr = none) :
    ∀ x ∈ fr, x &&& (1 <<< bit) ≠ 0 := by
  induction fr with
  | nil => simp
  | cons x xs ih =>
    by_cases hx : x &&& (1 <<< bit) = 0
    · simp [wait_flag_clear, hx] at h
    · cases hrec : wait_flag_clear bit xs with
      | none =>
        intro y hy
        rcases List.mem_cons.mp hy with rfl | hy
        · exact hx
        · exact ih hrec y hy
      | some p => simp [wait_flag_clear, hx, hrec] at h

/-! ## Trace observers -/

theorem writes_append (a b : List Access) : writes (a ++ b) = writes a ++ writes b := by
  induction a with
  | nil => simp [writes]
  | cons x xs ih => cases x <;> simp [writes, ih]

theorem writes_map_rd (off : Nat) (l : List Nat) : writes (l.map (Access.rd off)) = [] := by
  induction l with
  | nil => simp [writes]
  | cons x xs ih => simp [writes, ih]

theorem dataReads_append (a b : List Access) : dataReads (a ++ b) = dataReads a ++ dataReads b := by
  induction a with
  | nil => simp [dataReads]
  | cons x xs ih =>
    cases x with
    | rd off v => by_cases h : off = regOffset UART_DR <;> simp [dataReads, ih, h]
    | wr off v => simp [dataReads, ih]

theorem dataReads_map_fr (l : List Nat) :
    dataReads (l.map (Access.rd (regOffset UART_FR))) = [] := by
  induction l with
  | nil => simp [dataReads]
  | cons x xs ih =>
    simp only [regOffset, UART_FR, UART_DR] at ih
    simp [dataReads, ih, regOffset, UART_FR, UART_DR]

theorem gated_rd_run (p : Option Access) (off : Nat) (l : List Nat) (t : List Access)
    (hl : l ≠ []) :
    gated p (l.map (Access.rd off) ++ t)
      = gated (some (Access.rd off (l.getLast hl))) t := by
  induction l generalizing p with
  | nil => exact absurd rfl hl
  | cons x xs ih =>
    cases xs with
    | nil => simp [gated]
    | cons y ys =>
      have := ih (some (Access.rd off x)) (by simp)
      simpa [gated] using this

theorem txReadyCount_busy (l : List Nat) (h : ∀ x ∈ l, x &&& (1 <<< 5) ≠ 0) :
    txReadyCount l = 0 := by
  unfold txReadyCount
  rw [List.countP_eq_zero]
  intro x hx
  simpa using h x hx

/-! ## Sending one byte -/

theorem uart_send_char_ready (c : Byte) (pre : List Nat) (w : Nat) (post dr : List Nat)
    (hpre : ∀ x ∈ pre, x &&& (1 <<< 5) ≠ 0) (hw : w &&& (1 <<< 5) = 0) :
    uart_send_char c { fr := pre ++ w :: post, dr := dr }
      = some (pre.map (Access.rd (regOffset UART_FR))
                ++ [Access.rd (regOffset UART_FR) w, Access.wr (regOffset UART_DR) c.val],
              { fr := post, dr := dr }) := by
  simp [uart_send_char, wait_flag_clear_ready 5 pre w post hpre hw]

theorem uart_send_char_some (c : Byte) (hw hw' : Hw) (t : List Access)
    (h : uart_send_char c hw = some (t, hw')) :
    ∃ pre w, hw.fr = pre ++ w :: hw'.fr ∧ (∀ x ∈ pre, x &&& (1 <<< 5) ≠ 0)
      ∧ w &&& (1 <<< 5) = 0 ∧ hw'.dr = hw.dr
      ∧ t = pre.map (Access.rd (regOffset UART_FR))
              ++ [Access.rd (regOffset UART_FR) w, Access.wr (regOffset UART_DR) c.val] := by
  unfold uart_send_char at h
  cases hrec : wait_flag_clear 5 hw.fr with
  | none => simp [hrec] at h
  | some p =>
    obtain ⟨t1, fr1⟩ := p
    simp [hrec] at h
    obtain ⟨rfl, rfl⟩ := h
    obtain ⟨pre, w, hfr, hpre, hready, ht⟩ := wait_flag_clear_some 5 hw.fr t1 fr1 hrec
    exact ⟨pre, w, hfr, hpre, hready, rfl, by simp [ht]⟩

theorem uart_send_char_none (c : Byte) (hw : Hw) (h : uart_send_char c hw = none) :
    txReadyCount hw.fr = 0 := by
  unfold uart_send_char at h
  cases hrec : wait_flag_clear 5 hw.fr with
  | none => exact txReadyCount_busy _ (wait_flag_clear_none 5 hw.fr hrec)
  | some p => simp [hrec] at h

theorem txReadyCount_handshake (pre : List Nat) (w : Nat) (post : List Nat)
    (hpre : ∀ x ∈ pre, x &&& (1 <<< 5) ≠ 0) (hw : w &&& (1 <<< 5) = 0) :
    txReadyCount (pre ++ w :: post) = txReadyCount post + 1 := by
  have h0 := txReadyCount_busy pre hpre
  unfold txReadyCount at *
  have hw32 : w &&& 32 = 0 := hw
  rw [List.countP_append, h0, List.countP_cons]
  simp [hw32]

theorem gated_handshake (p : Option Access) (pre : List Nat) (w : Nat) (c : Nat)
    (t : List Access) (hw : w &&& (1 <<< 5) = 0) :
    gated p (pre.map (Access.rd (regOffset UART_FR))
              ++ [Access.rd (regOffset UART_FR) w, Access.wr (regOffset UART_DR) c] ++ t)
      = gated (some (Access.wr (regOffset UART_DR) c)) t := by
  have h := gated_rd_run p (regOffset UART_FR) (pre ++ [w])
    (Access.wr (regOffset UART_DR) c :: t) (by simp)
  simp only [List.map_append, List.map_cons, List.map_nil, List.append_assoc,
    List.singleton_append, List.cons_append, List.nil_append, List.getLast_append_singleton] at h ⊢
  have hw32 : w &&& 32 = 0 := hw
  rw [h]
  simp [gated, hw32]

/-! ## The transmit loop -/

theorem send_each_some (buf : List Byte) (is : List Nat) (hw hw' : Hw) (t : List Access)
    (h : send_each buf is hw = some (t, hw')) :
    txReadyCount hw.fr = is.length + txReadyCount hw'.fr
      ∧ writes t = is.map (fun i => (regOffset UART_DR, (buf.getD i 0).val))
      ∧ (∀ p, gated p t = true) ∧ dataReads t = [] ∧ hw'.dr = hw.dr := by
  induction is generalizing hw t with
  | nil =>
    simp [send_each] at h
    obtain ⟨rfl, rfl⟩ := h
    simp [writes, gated, dataReads]
  | cons i is ih =>
    cases h1 : uart_send_char (buf.getD i 0) hw with
    | none => simp only [send_each, h1] at h; exact absurd h (by simp)
    | some p1 =>
      obtain ⟨t1, hw1⟩ := p1
      cases h2 : send_each buf is hw1 with
      | none => simp only [send_each, h1, h2] at h; exact absurd h (by simp)
      | some p2 =>
        obtain ⟨t2, hw2⟩ := p2
        simp only [send_each, h1, h2, Option.some.injEq, Prod.mk.injEq] at h
        obtain ⟨rfl, rfl⟩ := h
        obtain ⟨pre, w, hfr, hpre, hready, hdr, ht1⟩ := uart_send_char_some _ _ _ _ h1
        obtain ⟨hcnt, hwr, hg, hrd, hdr2⟩ := ih hw1 t2 h2
        refine ⟨?_, ?_, ?_, ?_, ?_⟩
        · rw [hfr, txReadyCount_handshake pre w hw1.fr hpre hready, hcnt]
          simp only [List.length_cons]
          omega
        · rw [ht1, writes_append, writes_append, writes_map_rd, hwr]
          simp [writes]
        · intro p
          rw [ht1, gated_handshake p pre w _ t2 hready]
          exact hg _
        · rw [ht1, dataReads_append, dataReads_append, dataReads_map_fr, hrd]
          simp [dataReads, regOffset, UART_FR, UART_DR]
        · rw [hdr2, hdr]

theorem send_each_none (buf : List Byte) (is : List Nat) (hw : Hw)
    (h : send_each buf is hw = none) : txReadyCount hw.fr < is.length := by
  induction is generalizing hw with
  | nil => simp [send_each] at h
  | cons i is ih =>
    cases h1 : uart_send_char (buf.getD i 0) hw with
    | none =>
      have := uart_send_char_none _ _ h1
      simp only [List.length_cons]
      omega
    | some p1 =>
      obtain ⟨t1, hw1⟩ := p1
      cases h2 : send_each buf is hw1 with
      | none =>
        obtain ⟨pre, w, hfr, hpre, hready, -, -⟩ := uart_send_char_some _ _ _ _ h1
        have := ih hw1 h2
        rw [hfr, txReadyCount_handshake pre w hw1.fr hpre hready]
        simp only [List.length_cons]
        omega
      | some p2 => simp only [send_each, h1, h2] at h; exact absurd h (by simp)

theorem map_range_getD (buf : List Byte) (m : Nat) (hm : m ≤ buf.length) :
    (List.range m).map (fun i => buf.getD i 0) = buf.take m := by
  apply List.ext_getElem
  · simp [hm]
  · intro i h1 h2
    simp at h1 h2
    have hi : i < buf.length := by omega
    simp [List.getElem_take, hi]

/-! ## The write handler -/

theorem clamp_eq_min (n : Nat) :
    (if n > UART_MAX_USER_SIZE then UART_MAX_USER_SIZE else n) = min n UART_MAX_USER_SIZE := by
  split <;> omega

theorem copy_from_user_fst (dst src : List Byte) (n : Nat) :
    (copy_from_user dst src n).1 = 0 ↔ n ≤ src.length := by
  unfold copy_from_user
  split <;> simp <;> omega

theorem copy_memset_ok (buf user : List Byte) (m : Nat) (hm : m ≤ UART_MAX_USER_SIZE)
    (hu : m ≤ user.length) :
    (copy_from_user (memset buf 0 (UART_MAX_USER_SIZE + 1)) user m).2
      = user.take m ++ List.replicate (UART_MAX_USER_SIZE + 1 - m) 0
          ++ buf.drop (UART_MAX_USER_SIZE + 1) := by
  have h1 : m ≤ (List.replicate (UART_MAX_USER_SIZE + 1) (0 : Byte)).length := by
    simp; omega
  simp [copy_from_user, memset, hu, List.drop_append_of_le_length h1]

theorem copy_memset_fault (buf user : List Byte) (m : Nat) (hm : m ≤ UART_MAX_USER_SIZE)
    (hu : user.length < m) :
    (copy_from_user (memset buf 0 (UART_MAX_USER_SIZE + 1)) user m).2
      = user ++ List.replicate (UART_MAX_USER_SIZE + 1 - user.length) 0
          ++ buf.drop (UART_MAX_USER_SIZE + 1) := by
  have h1 : m ≤ (List.replicate (UART_MAX_USER_SIZE + 1) (0 : Byte)).length := by
    simp; omega
  have h2 : ¬ m ≤ user.length := by omega
  simp only [copy_from_user, memset, h2, if_false, List.drop_append_of_le_length h1,
    List.drop_replicate, List.append_assoc]
  rw [← List.append_assoc (List.replicate _ _), List.append_replicate_replicate]
  congr 3
  omega

theorem uart_write_fault (buf user : List Byte) (n : Nat) (hw : Hw)
    (hu : user.length < min n UART_MAX_USER_SIZE) :
    uart_write buf user n hw
      = some { ret := -EFAULT, bus := [], printed := [],
               uart_buffer := user ++ List.replicate (UART_MAX_USER_SIZE + 1 - user.length) 0
                                ++ buf.drop (UART_MAX_USER_SIZE + 1),
               hw := hw } := by
  have hne : (copy_from_user (memset buf 0 (UART_MAX_USER_SIZE + 1)) user
      (min n UART_MAX_USER_SIZE)).1 ≠ 0 := by
    rw [Ne, copy_from_user_fst]; omega
  have hbuf := copy_memset_fault buf user (min n UART_MAX_USER_SIZE) (Nat.min_le_right _ _) hu
  simp only [uart_write, clamp_eq_min]
  rw [if_pos hne, hbuf]

theorem uart_write_some (buf user : List Byte) (n : Nat) (hw : Hw) (r : WriteResult)
    (hu : min n UART_MAX_USER_SIZE ≤ user.length) (h : uart_write buf user n hw = some r) :
    r.ret = ((min n UART_MAX_USER_SIZE : Nat) : Int)
      ∧ txReadyCount hw.fr = min n UART_MAX_USER_SIZE + txReadyCount r.hw.fr
      ∧ writes r.bus
          = (user.take (min n UART_MAX_USER_SIZE)).map (fun b => (regOffset UART_DR, b.val))
      ∧ (∀ p, gated p r.bus = true) ∧ dataReads r.bus = []
      ∧ r.uart_buffer
          = user.take (min n UART_MAX_USER_SIZE)
              ++ List.replicate (UART_MAX_USER_SIZE + 1 - min n UART_MAX_USER_SIZE) 0
              ++ buf.drop (UART_MAX_USER_SIZE + 1)
      ∧ r.printed = [cstr r.uart_buffer] ∧ r.hw.dr = hw.dr := by
  have heq : (copy_from_user (memset buf 0 (UART_MAX_USER_SIZE + 1)) user
      (min n UART_MAX_USER_SIZE)).1 = 0 := by
    rw [copy_from_user_fst]; exact hu
  have hbuf := copy_memset_ok buf user (min n UART_MAX_USER_SIZE) (Nat.min_le_right _ _) hu
  simp only [uart_write, clamp_eq_min] at h
  rw [if_neg (by simp [heq]), hbuf] at h
  cases hs : send_each (user.take (min n UART_MAX_USER_SIZE)
      ++ List.replicate (UART_MAX_USER_SIZE + 1 - min n UART_MAX_USER_SIZE) 0
      ++ buf.drop (UART_MAX_USER_SIZE + 1)) (List.range (min n UART_MAX_USER_SIZE)) hw with
  | none => rw [hs] at h; exact absurd h (by simp)
  | some p =>
    obtain ⟨t, hw'⟩ := p
    rw [hs] at h
    simp only [Option.some.injEq] at h
    subst h
    obtain ⟨hcnt, hwr, hg, hrd, hdr⟩ := send_each_some _ _ _ _ _ hs
    refine ⟨rfl, by simpa using hcnt, ?_, hg, hrd, rfl, rfl, hdr⟩
    rw [hwr]
    have hlen : min n UART_MAX_USER_SIZE
        ≤ (user.take (min n UART_MAX_USER_SIZE)
            ++ List.replicate (UART_MAX_USER_SIZE + 1 - min n UART_MAX_USER_SIZE) (0 : Byte)
            ++ buf.drop (UART_MAX_USER_SIZE + 1)).length := by
      simp; omega
    have hmap := map_range_getD _ _ hlen
    have htake : (user.take (min n UART_MAX_USER_SIZE)
            ++ List.replicate (UART_MAX_USER_SIZE + 1 - min n UART_MAX_USER_SIZE) (0 : Byte)
            ++ buf.drop (UART_MAX_USER_SIZE + 1)).take (min n UART_MAX_USER_SIZE)
          = user.take (min n UART_MAX_USER_SIZE) := by
      rw [List.append_assoc]
      exact List.take_left' (by simp [hu])
    conv_rhs => rw [← htake, ← hmap, List.map_map]
    rfl

theorem uart_write_none (buf user : List Byte) (n : Nat) (hw : Hw)
    (h : uart_write buf user n hw = none) :
    min n UART_MAX_USER_SIZE ≤ user.length ∧ txReadyCount hw.fr < min n UART_MAX_USER_SIZE := by
  by_cases hu : min n UART_MAX_USER_SIZE ≤ user.length
  · refine ⟨hu, ?_⟩
    have heq : (copy_from_user (memset buf 0 (UART_MAX_USER_SIZE + 1)) user
        (min n UART_MAX_USER_SIZE)).1 = 0 := by
      rw [copy_from_user_fst]; exact hu
    simp only [uart_write, clamp_eq_min] at h
    rw [if_neg (by simp [heq])] at h
    cases hs : send_each (copy_from_user (memset buf 0 (UART_MAX_USER_SIZE + 1)) user
        (min n UART_MAX_USER_SIZE)).2 (List.range (min n UART_MAX_USER_SIZE)) hw with
    | none => simpa using send_each_none _ _ _ hs
    | some p => rw [hs] at h; exact absurd h (by simp)
  · rw [uart_write_fault buf user n hw (by omega)] at h
    exact absurd h (by simp)

theorem zero_tail (a : List Byte) (h : a.length ≤ UART_MAX_USER_SIZE) :
    (a ++ List.replicate (UART_MAX_USER_SIZE + 1 - a.length) 0).length = 257
      ∧ (a ++ List.replicate (UART_MAX_USER_SIZE + 1 - a.length) 0)[256]? = some 0 := by
  unfold UART_MAX_USER_SIZE at *
  constructor
  · simp; omega
  · rw [List.getElem?_append_right (by omega), List.getElem?_replicate]
    rw [if_pos (by omega)]

theorem reachable_inv (buf : List Byte) (h : Reachable buf) :
    buf.length = 257 ∧ buf[256]? = some 0 := by
  induction h with
  | init => exact zero_tail [] (Nat.zero_le _)
  | write b user n hw r _ hrun ih =>
    have hdrop : b.drop (UART_MAX_USER_SIZE + 1) = [] := by
      apply List.drop_of_length_le
      rw [ih.1]; decide
    by_cases hu : min n UART_MAX_USER_SIZE ≤ user.length
    · obtain ⟨-, -, -, -, -, hbuf, -, -⟩ := uart_write_some b user n hw r hu hrun
      rw [hbuf, hdrop, List.append_nil]
      have hl : (user.take (min n UART_MAX_USER_SIZE)).length = min n UART_MAX_USER_SIZE := by
        simp [hu]
      have := zero_tail (user.take (min n UART_MAX_USER_SIZE))
        (by rw [hl]; exact Nat.min_le_right _ _)
      rw [hl] at this
      exact this
    · rw [uart_write_fault b user n hw (by omega)] at hrun
      simp only [Option.some.injEq] at hrun
      subst hrun
      simp only [hdrop, List.append_nil]
      have hle : user.length ≤ UART_MAX_USER_SIZE := by
        have := Nat.min_le_right n UART_MAX_USER_SIZE
        omega
      exact zero_tail user hle

/-! ## Claims about the write handler -/

/-- C1: whenever the copy from the caller succeeds, `uart_write` returns
`min(n, 256)`.  Either the call never returns (the device accepts fewer than
`min(n, 256)` bytes), or it returns `min(n, 256)` after exactly that many
register writes, all to the data register at offset 0, carrying the first
`min(n, 256)` source bytes in order; for `n > 256` that is 256 writes and the
value 256, never `n`. -/
theorem uart_write_returns_clamped_size (uart_buffer user : List Byte) (n : Nat) (hw : Hw)
    (hcopy : (copy_from_user (memset uart_buffer 0 257) user (min n 256)).1 = 0) :
    match uart_write uart_buffer user n hw with
    | none => txReadyCount hw.fr < min n 256
    | some r =>
      min n 256 ≤ txReadyCount hw.fr
        ∧ r.ret = ((min n 256 : Nat) : Int)
        ∧ (writes r.bus).length = min n 256
        ∧ writes r.bus = (user.take (min n 256)).map (fun b => (0x00, b.val))
        ∧ (256 < n → r.ret = 256 ∧ r.ret ≠ (n : Int) ∧ (writes r.bus).length = 256
            ∧ writes r.bus = (user.take 256).map (fun b => (0x00, b.val))) := by
  have hu : min n UART_MAX_USER_SIZE ≤ user.length := (copy_from_user_fst _ _ _).mp hcopy
  split
  · next h => exact (uart_write_none _ _ _ _ h).2
  · next r h =>
    obtain ⟨hret, hcnt, hwr, -, -, -, -, -⟩ := uart_write_some _ _ _ _ r hu h
    have hwr2 : writes r.bus = (user.take (min n 256)).map (fun b => (0x00, b.val)) := hwr
    have hlen : (writes r.bus).length = min n 256 := by
      rw [hwr2, List.length_map, List.length_take]
      exact Nat.min_eq_left hu
    have hcnt2 : txReadyCount hw.fr = min n 256 + txReadyCount r.hw.fr := hcnt
    have hret2 : r.ret = ((min n 256 : Nat) : Int) := hret
    refine ⟨by omega, hret2, hlen, hwr2, ?_⟩
    intro hn
    have hmin : min n 256 = 256 := by omega
    rw [hmin] at hret2 hlen hwr2
    refine ⟨by simpa using hret2, ?_, hlen, hwr2⟩
    rw [hret2]
    omega

/-- C2: whatever the shared transfer buffer held before the call (also the
bytes of an earlier, longer write), a write of `n <= 256` bytes whose copy
succeeds makes exactly `n` register writes, all to the data register at
offset 0, carrying the `n` source bytes in source order, and reads the data
register never.  The only other outcome is that the call never returns, when
the device accepts fewer than `n` bytes. -/
theorem uart_write_sends_source_bytes (uart_buffer user : List Byte) (n : Nat) (hw : Hw)
    (hn : n ≤ 256) (hcopy : (copy_from_user (memset uart_buffer 0 257) user n).1 = 0) :
    match uart_write uart_buffer user n hw with
    | none => txReadyCount hw.fr < n
    | some r =>
      n ≤ txReadyCount hw.fr
        ∧ writes r.bus = (user.take n).map (fun b => (0x00, b.val))
        ∧ dataReads r.bus = [] := by
  have hmin : min n UART_MAX_USER_SIZE = n := Nat.min_eq_left hn
  have hu : min n UART_MAX_USER_SIZE ≤ user.length := by
    rw [hmin]; exact (copy_from_user_fst _ _ _).mp hcopy
  split
  · next h =>
    have := (uart_write_none _ _ _ _ h).2
    rwa [hmin] at this
  · next r h =>
    obtain ⟨-, hcnt, hwr, -, hrd, -, -, -⟩ := uart_write_some _ _ _ _ r hu h
    rw [hmin] at hcnt hwr
    exact ⟨by omega, hwr, hrd⟩

/-- C3: for every requested size, when the copy from the caller faults,
`uart_write` returns `-EFAULT` (-14) having made no register access at all:
no byte is transmitted, and the call returns whatever the device does. -/
theorem uart_write_copy_fault (uart_buffer user : List Byte) (n : Nat) (hw : Hw)
    (hfault : (copy_from_user (memset uart_buffer 0 257) user (min n 256)).1 ≠ 0) :
    ∃ r, uart_write uart_buffer user n hw = some r ∧ r.ret = -EFAULT ∧ r.ret = -14
      ∧ r.bus = [] ∧ writes r.bus = [] ∧ r.hw = hw := by
  have hu : user.length < min n UART_MAX_USER_SIZE := by
    have := (copy_from_user_fst (memset uart_buffer 0 257) user (min n 256)).not.mp hfault
    exact Nat.lt_of_not_le this
  exact ⟨_, uart_write_fault uart_buffer user n hw hu, rfl, rfl, rfl, rfl, rfl⟩

set_option maxRecDepth 100000 in
/-- Witness for C1: a request of 300 bytes of `A` on an idle device returns 256
after 256 writes to the data register. -/
theorem uart_write_returns_clamped_size_witness :
    (copy_from_user (memset (List.replicate 257 0) 0 257) (List.replicate 300 65)
        (min 300 256)).1 = 0
      ∧ ∃ r, uart_write (List.replicate 257 0) (List.replicate 300 65) 300
            { fr := List.replicate 256 0, dr := [] } = some r
          ∧ r.ret = 256 ∧ (writes r.bus).length = 256
          ∧ writes r.bus = List.replicate 256 (0, 65) := by
  have hc : (copy_from_user (memset (List.replicate 257 0) 0 257) (List.replicate 300 65)
      (min 300 256)).1 = 0 := by decide
  have h := uart_write_returns_clamped_size (List.replicate 257 0) (List.replicate 300 65) 300
    { fr := List.replicate 256 0, dr := [] } hc
  refine ⟨hc, ?_⟩
  cases hr : uart_write (List.replicate 257 0) (List.replicate 300 65) 300
      { fr := List.replicate 256 0, dr := [] } with
  | none =>
    rw [hr] at h
    exact absurd h (by decide)
  | some r =>
    rw [hr] at h
    obtain ⟨h1, h2, h3, h4⟩ := h.2.2.2.2 (by decide)
    refine ⟨r, rfl, h1, h3, ?_⟩
    rw [h4]
    decide

set_option maxRecDepth 100000 in
/-- Witness for C2: after a write of 256 bytes of `A`, which leaves the buffer
full of `A`, a write of the three bytes `xyz` writes exactly `x`, `y`, `z` to
the data register. -/
theorem uart_write_sends_source_bytes_witness :
    3 ≤ 256
      ∧ (uart_write (List.replicate 257 0) (List.replicate 256 65) 256
            { fr := List.replicate 256 0, dr := [] }).map (fun r => r.uart_buffer)
          = some (List.replicate 256 65 ++ [0])
      ∧ (copy_from_user (memset (List.replicate 256 65 ++ [0]) 0 257) [120, 121, 122] 3).1 = 0
      ∧ ∃ r, uart_write (List.replicate 256 65 ++ [0]) [120, 121, 122] 3
            { fr := [0, 0, 0], dr := [] } = some r
          ∧ writes r.bus = [(0, 120), (0, 121), (0, 122)] := by
  have hc : (copy_from_user (memset (List.replicate 256 65 ++ [0]) 0 257)
      [120, 121, 122] 3).1 = 0 := by decide
  have h := uart_write_sends_source_bytes (List.replicate 256 65 ++ [0]) [120, 121, 122] 3
    { fr := [0, 0, 0], dr := [] } (by decide) hc
  refine ⟨by decide, by decide, hc, ?_⟩
  cases hr : uart_write (List.replicate 256 65 ++ [0]) [120, 121, 122] 3
      { fr := [0, 0, 0], dr := [] } with
  | none =>
    rw [hr] at h
    exact absurd h (by decide)
  | some r =>
    rw [hr] at h
    exact ⟨r, rfl, h.2.1⟩

/-- Witness for C3: a request of 10 bytes of which only 3 are readable. -/
theorem uart_write_copy_fault_witness :
    (copy_from_user (memset (List.replicate 257 0) 0 257) [1, 2, 3] (min 10 256)).1 ≠ 0
      ∧ ∃ r, uart_write (List.replicate 257 0) [1, 2, 3] 10 { fr := [0, 0], dr := [] } = some r
          ∧ r.ret = -EFAULT ∧ r.ret = -14 ∧ r.bus = [] ∧ writes r.bus = []
          ∧ r.hw = { fr := [0, 0], dr := [] } :=
  ⟨by decide, uart_write_copy_fault (List.replicate 257 0) [1, 2, 3] 10
    { fr := [0, 0], dr := [] } (by decide)⟩

/-- C9: when the flag register (offset 0x18) shows the transmit-buffer-full
bit (bit 5) set in the words `pre` and clear for the first time in `w`,
`uart_send_char` reads the flag register once per word of `pre`, once more for
`w`, then writes the byte once to the data register (offset 0x00) and
returns, leaving the later observations untouched.  In the register trace of
every `uart_write` that returns, each write goes to the data register and the
access immediately before it is a flag read with the full bit clear. -/
theorem uart_send_char_handshake (c : Byte) (pre : List Nat) (w : Nat) (post dr : List Nat)
    (uart_buffer user : List Byte) (n : Nat) (hw : Hw)
    (hpre : ∀ x ∈ pre, x &&& (1 <<< 5) ≠ 0) (hready : w &&& (1 <<< 5) = 0) :
    uart_send_char c { fr := pre ++ w :: post, dr := dr }
        = some (pre.map (Access.rd 0x18) ++ [Access.rd 0x18 w, Access.wr 0x00 c.val],
                { fr := post, dr := dr })
      ∧ match uart_write uart_buffer user n hw with
        | none => min n 256 ≤ user.length ∧ txReadyCount hw.fr < min n 256
        | some r => gated none r.bus = true := by
  refine ⟨uart_send_char_ready c pre w post dr hpre hready, ?_⟩
  split
  · next h => exact uart_write_none _ _ _ _ h
  · next r h =>
    by_cases hu : min n UART_MAX_USER_SIZE ≤ user.length
    · exact (uart_write_some _ _ _ _ r hu h).2.2.2.1 none
    · rw [uart_write_fault uart_buffer user n hw (by omega)] at h
      simp only [Option.some.injEq] at h
      subst h
      rfl

/-- Witness for C9: two busy observations, then a ready one; and a two-byte
write on a device that is busy once. -/
theorem uart_send_char_handshake_witness :
    (∀ x ∈ [32, 0x28], x &&& (1 <<< 5) ≠ 0) ∧ 0x90 &&& (1 <<< 5) = 0
      ∧ uart_send_char 65 { fr := [32, 0x28] ++ 0x90 :: [7], dr := [9] }
          = some ([32, 0x28].map (Access.rd 0x18) ++ [Access.rd 0x18 0x90, Access.wr 0x00 65],
                  { fr := [7], dr := [9] })
      ∧ match uart_write (List.replicate 257 0) [120, 121] 2 { fr := [32, 0, 0], dr := [] } with
        | none => min 2 256 ≤ [120, 121].length
            ∧ txReadyCount ({ fr := [32, 0, 0], dr := [] } : Hw).fr < min 2 256
        | some r => gated none r.bus = true :=
  ⟨by decide, by decide,
    uart_send_char_handshake 65 [32, 0x28] 0x90 [7] [9] (List.replicate 257 0) [120, 121] 2
      { fr := [32, 0, 0], dr := [] } (by decide) (by decide)⟩

theorem takeWhile_length_le (p : Byte → Bool) (l : List Byte) (i : Nat) (x : Byte)
    (h : l[i]? = some x) (hp : p x = false) : (l.takeWhile p).length ≤ i := by
  induction l generalizing i with
  | nil => simp at h
  | cons a l ih =>
    cases i with
    | zero =>
      simp at h
      subst h
      simp [List.takeWhile, hp]
    | succ i =>
      simp at h
      have := ih i h
      rw [List.takeWhile_cons]
      split
      · simp; omega
      · simp

/-- C10: every reachable content of the transfer buffer has 257 bytes, the
last of which (index 256) is zero.  From such a content a call of `uart_write`
either never returns (device not ready), or leaves a buffer that is again 257
bytes long with a zero at index 256, whose NUL-terminated string has at most
256 bytes; when the call succeeded, it returned `m = min(n, 256)` and the
buffer holds the `m` copied source bytes followed by `257 - m` zero bytes. -/
theorem uart_buffer_zero_padded (uart_buffer user : List Byte) (n : Nat) (hw : Hw)
    (hreach : Reachable uart_buffer) :
    uart_buffer.length = 257 ∧ uart_buffer[256]? = some 0
      ∧ match uart_write uart_buffer user n hw with
        | none => min n 256 ≤ user.length ∧ txReadyCount hw.fr < min n 256
        | some r =>
          Reachable r.uart_buffer
            ∧ r.uart_buffer.length = 257 ∧ r.uart_buffer[256]? = some 0
            ∧ (cstr r.uart_buffer).length ≤ 256
            ∧ (0 ≤ r.ret → r.ret = ((min n 256 : Nat) : Int)
                ∧ r.uart_buffer = user.take (min n 256) ++ List.replicate (257 - min n 256) 0) := by
  obtain ⟨hlen, hlast⟩ := reachable_inv uart_buffer hreach
  refine ⟨hlen, hlast, ?_⟩
  split
  · next h => exact uart_write_none _ _ _ _ h
  · next r h =>
    have hr : Reachable r.uart_buffer := Reachable.write uart_buffer user n hw r hreach h
    obtain ⟨hl, hz⟩ := reachable_inv _ hr
    refine ⟨hr, hl, hz, takeWhile_length_le _ _ 256 0 hz (by simp), ?_⟩
    intro hret
    have hdrop : uart_buffer.drop (UART_MAX_USER_SIZE + 1) = [] := by
      apply List.drop_of_length_le
      rw [hlen]; decide
    by_cases hu : min n UART_MAX_USER_SIZE ≤ user.length
    · obtain ⟨h1, -, -, -, -, hbuf, -, -⟩ := uart_write_some _ _ _ _ r hu h
      rw [hdrop, List.append_nil] at hbuf
      exact ⟨h1, hbuf⟩
    · rw [uart_write_fault uart_buffer user n hw (by omega)] at h
      simp only [Option.some.injEq] at h
      subst h
      have hneg : ¬ (0 : Int) ≤ -EFAULT := by decide
      exact absurd hret hneg

set_option maxRecDepth 100000 in
/-- Witness for C10: the first write after module load, 300 bytes of `A`
requested on an idle device: the call returns 256 and leaves 256 bytes of `A`
followed by one zero byte. -/
theorem uart_buffer_zero_padded_witness :
    Reachable (List.replicate (UART_MAX_USER_SIZE + 1) 0)
      ∧ ∃ r, uart_write (List.replicate (UART_MAX_USER_SIZE + 1) 0) (List.replicate 300 65) 300
            { fr := List.replicate 256 0, dr := [] } = some r
          ∧ 0 ≤ r.ret ∧ r.ret = 256 ∧ Reachable r.uart_buffer
          ∧ r.uart_buffer.length = 257 ∧ r.uart_buffer[256]? = some 0
          ∧ r.uart_buffer = List.replicate 256 65 ++ [0] := by
  have h := uart_buffer_zero_padded (List.replicate (UART_MAX_USER_SIZE + 1) 0)
    (List.replicate 300 65) 300 { fr := List.replicate 256 0, dr := [] } Reachable.init
  have hret : (uart_write (List.replicate (UART_MAX_USER_SIZE + 1) 0) (List.replicate 300 65) 300
      { fr := List.replicate 256 0, dr := [] }).map (fun r => r.ret) = some 256 := by decide
  refine ⟨Reachable.init, ?_⟩
  cases hr : uart_write (List.replicate (UART_MAX_USER_SIZE + 1) 0) (List.replicate 300 65) 300
      { fr := List.replicate 256 0, dr := [] } with
  | none =>
    rw [hr] at hret
    exact absurd hret (by simp)
  | some r =>
    rw [hr] at h hret
    simp only [Option.map_some', Option.some.injEq] at hret
    have hpos : 0 ≤ r.ret := by rw [hret]; decide
    obtain ⟨-, -, hreach, hlen, hlast, -, hok⟩ := h
    refine ⟨r, rfl, hpos, hret, hreach, hlen, hlast, ?_⟩
    rw [(hok hpos).2]
    decide

/-! ## Claims about the read handler -/

theorem uart_receive_char_ready (pre : List Nat) (f : Nat) (post : List Nat) (w : Nat)
    (rest : List Nat) (hpre : ∀ x ∈ pre, x &&& (1 <<< 4) ≠ 0) (hready : f &&& (1 <<< 4) = 0) :
    uart_receive_char { fr := pre ++ f :: post, dr := w :: rest }
      = some (pre.map (Access.rd (regOffset UART_FR))
                ++ [Access.rd (regOffset UART_FR) f, Access.rd (regOffset UART_DR) w],
              toChar w, { fr := post, dr := rest }) := by
  simp [uart_receive_char, wait_flag_clear_ready 4 pre f post hpre hready]

theorem copy_to_user_fst (dst src : List Byte) (n : Nat) :
    (copy_to_user dst src n).1 = 0 ↔ n ≤ dst.length := by
  unfold copy_to_user
  split <;> simp <;> omega

/-- C4: for every requested size, when the flag register shows the
receive-buffer-empty bit (bit 4) set in the words `pre` and clear for the first
time in `f`, and the copy-out succeeds, `uart_read` returns 1; its register
accesses are the flag reads up to and including `f` followed by one read of
the data register (offset 0x00), and exactly the first byte of the caller
memory is replaced, by the low eight bits of the word `w` the data register
presented (by `w` itself when it is a byte). -/
theorem uart_read_one_byte (user : List Byte) (size : Nat) (pre : List Nat) (f : Nat)
    (post : List Nat) (w : Nat) (rest : List Nat)
    (hpre : ∀ x ∈ pre, x &&& (1 <<< 4) ≠ 0) (hready : f &&& (1 <<< 4) = 0)
    (hcopy : (copy_to_user user [toChar w, 0] 1).1 = 0) :
    uart_read user size { fr := pre ++ f :: post, dr := w :: rest }
        = some { ret := 1,
                 bus := pre.map (Access.rd 0x18) ++ [Access.rd 0x18 f, Access.rd 0x00 w],
                 user := toChar w :: user.drop 1,
                 hw := { fr := post, dr := rest } }
      ∧ (toChar w).val = w % 256 ∧ (w < 256 → (toChar w).val = w) := by
  have hu : 1 ≤ user.length := (copy_to_user_fst _ _ _).mp hcopy
  refine ⟨?_, rfl, fun hw => Nat.mod_eq_of_lt hw⟩
  simp only [uart_read, uart_receive_char_ready pre f post w rest hpre hready]
  rw [if_neg (by simp [hcopy])]
  simp [copy_to_user, hu, regOffset, UART_FR, UART_DR]

/-- Witness for C4: requested size 0, two empty observations, then data; the
data register presents the byte 0x41. -/
theorem uart_read_one_byte_witness :
    (∀ x ∈ [0x10, 0x90], x &&& (1 <<< 4) ≠ 0) ∧ 0x20 &&& (1 <<< 4) = 0
      ∧ (copy_to_user [1, 2] [toChar 0x41, 0] 1).1 = 0
      ∧ uart_read [1, 2] 0 { fr := [0x10, 0x90] ++ 0x20 :: [7], dr := 0x41 :: [3] }
          = some { ret := 1,
                   bus := [0x10, 0x90].map (Access.rd 0x18)
                            ++ [Access.rd 0x18 0x20, Access.rd 0x00 0x41],
                   user := toChar 0x41 :: [1, 2].drop 1,
                   hw := { fr := [7], dr := [3] } }
      ∧ (toChar 0x41).val = 0x41 % 256 ∧ 0x41 < 256 ∧ (toChar 0x41).val = 0x41 :=
  have h := uart_read_one_byte [1, 2] 0 [0x10, 0x90] 0x20 [7] 0x41 [3]
    (by decide) (by decide) (by decide)
  ⟨by decide, by decide, by decide, h.1, h.2.1, by decide, h.2.2 (by decide)⟩

/-- The conversion to `char` in `uart_receive_char` drops what the data
register holds above bit 7: the word 0x141 is delivered as the byte 0x41. -/
theorem uart_read_truncates_example :
    (uart_read [1, 2] 1 { fr := [0], dr := [0x141] }).map (fun r => (r.ret, r.user))
      = some (1, [0x41, 2]) := by
  decide

/-- C5: when the copy-out to the caller faults, `uart_read` (once the device
has shown data available) returns `-EFAULT` (-14); it has read the data
register exactly once, so the word `w` is consumed from the device, it has
written no register, it does not retry, and the caller memory is unchanged. -/
theorem uart_read_copy_fault (user : List Byte) (size : Nat) (pre : List Nat) (f : Nat)
    (post : List Nat) (w : Nat) (rest : List Nat)
    (hpre : ∀ x ∈ pre, x &&& (1 <<< 4) ≠ 0) (hready : f &&& (1 <<< 4) = 0)
    (hfault : (copy_to_user user [toChar w, 0] 1).1 ≠ 0) :
    ∃ r, uart_read user size { fr := pre ++ f :: post, dr := w :: rest } = some r
      ∧ r.ret = -EFAULT ∧ r.ret = -14
      ∧ r.bus = pre.map (Access.rd 0x18) ++ [Access.rd 0x18 f, Access.rd 0x00 w]
      ∧ dataReads r.bus = [w] ∧ writes r.bus = []
      ∧ r.hw = { fr := post, dr := rest } ∧ r.user = user := by
  have hu : user = [] := by
    have := (copy_to_user_fst user [toChar w, 0] 1).not.mp hfault
    have hl : user.length = 0 := by omega
    exact List.length_eq_zero.mp hl
  subst hu
  refine ⟨{ ret := -EFAULT,
            bus := pre.map (Access.rd 0x18) ++ [Access.rd 0x18 f, Access.rd 0x00 w],
            user := [], hw := { fr := post, dr := rest } }, ?_, rfl, rfl, rfl, ?_, ?_, rfl, rfl⟩
  · simp only [uart_read, uart_receive_char_ready pre f post w rest hpre hready]
    rw [if_pos hfault]
    simp [copy_to_user, regOffset, UART_FR, UART_DR]
  · have h := dataReads_map_fr pre
    simp only [regOffset, UART_FR] at h
    rw [dataReads_append, h]
    simp [dataReads, regOffset, UART_DR]
  · rw [writes_append, writes_map_rd]
    simp [writes]

/-- Witness for C5: the destination pointer has no writable byte. -/
theorem uart_read_copy_fault_witness :
    (∀ x ∈ [0x10], x &&& (1 <<< 4) ≠ 0) ∧ 0 &&& (1 <<< 4) = 0
      ∧ (copy_to_user [] [toChar 0x41, 0] 1).1 ≠ 0
      ∧ ∃ r, uart_read [] 5 { fr := [0x10] ++ 0 :: [], dr := 0x41 :: [0x42] } = some r
          ∧ r.ret = -EFAULT ∧ r.ret = -14
          ∧ r.bus = [0x10].map (Access.rd 0x18) ++ [Access.rd 0x18 0, Access.rd 0x00 0x41]
          ∧ dataReads r.bus = [0x41] ∧ writes r.bus = []
          ∧ r.hw = { fr := [], dr := [0x42] } ∧ r.user = [] :=
  ⟨by decide, by decide, by decide,
    uart_read_copy_fault [] 5 [0x10] 0 [] 0x41 [0x42] (by decide) (by decide) (by decide)⟩

/-! ## Claims about the module entry points -/

/-- C6: for every outcome of `ioremap` and `proc_create`, `uart_driver_init`
returns 0 exactly when both return non-NULL, and `-ENOMEM` otherwise.  When the
mapping fails the only primitive called is `ioremap`; when the mapping
succeeds and the publication fails the primitives called are `ioremap`,
`proc_create`, then `iounmap` once on the window just mapped.  On either error
the kernel holds exactly the resources it held before the call; on success it
holds the new window and the new entry in addition. -/
theorem uart_driver_init_outcomes (g : Globals) (k : Kernel) (map_ret create_ret : Nat) :
    ((uart_driver_init g k map_ret create_ret).ret = 0 ↔ map_ret ≠ 0 ∧ create_ret ≠ 0)
      ∧ (uart_driver_init g k map_ret create_ret).ret
          = (if map_ret ≠ 0 ∧ create_ret ≠ 0 then 0 else -ENOMEM)
      ∧ primitives (uart_driver_init g k map_ret create_ret).calls
          = (if map_ret = 0 then
               [Call.ioremap BCM2837_UART_ADDRESS PAGE_SIZE 0]
             else if create_ret = 0 then
               [Call.ioremap BCM2837_UART_ADDRESS PAGE_SIZE map_ret, Call.proc_create 0,
                Call.iounmap map_ret]
             else
               [Call.ioremap BCM2837_UART_ADDRESS PAGE_SIZE map_ret,
                Call.proc_create create_ret])
      ∧ (uart_driver_init g k map_ret create_ret).k
          = (if map_ret ≠ 0 ∧ create_ret ≠ 0 then
               { mapped := map_ret :: k.mapped, entries := create_ret :: k.entries }
             else k) := by
  by_cases hm : map_ret = 0
  · subst hm
    simp [uart_driver_init, primitives, ioremap, ENOMEM]
  · by_cases hc : create_ret = 0
    · subst hc
      simp [uart_driver_init, primitives, ioremap, proc_create, iounmap, hm, ENOMEM]
    · simp [uart_driver_init, primitives, ioremap, proc_create, hm, hc]

/-- C7: `uart_driver_exit` calls exactly two resource primitives, in this
order: `proc_remove(uart_proc)`, then `iounmap(uart_registers)`.  When the
removal has completed the entry is gone and every window is still mapped; the
unmapping comes after.  Run on the state left by a successful
`uart_driver_init`, the shutdown gives back both resources: the kernel holds
what it held before the module was loaded. -/
theorem uart_driver_exit_order (g g0 : Globals) (k k0 : Kernel) (map_ret create_ret : Nat)
    (hm : map_ret ≠ 0) (hc : create_ret ≠ 0) :
    primitives (uart_driver_exit g k).calls
        = [Call.proc_remove g.uart_proc, Call.iounmap g.uart_registers]
      ∧ (uart_driver_exit g k).k = iounmap g.uart_registers (proc_remove g.uart_proc k)
      ∧ (proc_remove g.uart_proc k).entries = k.entries.erase g.uart_proc
      ∧ (proc_remove g.uart_proc k).mapped = k.mapped
      ∧ (uart_driver_exit g k).k.mapped = k.mapped.erase g.uart_registers
      ∧ (uart_driver_exit g k).k.entries = k.entries.erase g.uart_proc
      ∧ (uart_driver_exit (uart_driver_init g0 k0 map_ret create_ret).g
            (uart_driver_init g0 k0 map_ret create_ret).k).k = k0 := by
  refine ⟨by simp [uart_driver_exit, primitives], rfl, rfl, rfl, rfl, rfl, ?_⟩
  simp [uart_driver_init, uart_driver_exit, ioremap, proc_create, iounmap, proc_remove, hm, hc]

/-- Witness for C7: load on a kernel holding nothing for the module, then
unload. -/
theorem uart_driver_exit_order_witness :
    (0x1000 : Nat) ≠ 0 ∧ (0x2000 : Nat) ≠ 0
      ∧ primitives (uart_driver_exit ⟨0x2000, 0x1000⟩ ⟨[0x1000], [0x2000]⟩).calls
          = [Call.proc_remove 0x2000, Call.iounmap 0x1000]
      ∧ (uart_driver_exit ⟨0x2000, 0x1000⟩ ⟨[0x1000], [0x2000]⟩).k = ⟨[], []⟩
      ∧ (uart_driver_exit (uart_driver_init ⟨0, 0⟩ ⟨[], []⟩ 0x1000 0x2000).g
            (uart_driver_init ⟨0, 0⟩ ⟨[], []⟩ 0x1000 0x2000).k).k = ⟨[], []⟩ := by
  have h := uart_driver_exit_order ⟨0x2000, 0x1000⟩ ⟨0, 0⟩ ⟨[0x1000], [0x2000]⟩ ⟨[], []⟩
    0x1000 0x2000 (by decide) (by decide)
  exact ⟨by decide, by decide, h.1, by decide, h.2.2.2.2.2.2⟩

/-! ## The controller handle over the module lifecycle -/

/-- The body of `uart_driver_init` tests nothing before it maps: whatever the
globals and the kernel hold, its calls are fixed by the two results alone. -/
theorem uart_driver_init_calls (g : Globals) (k : Kernel) (map_ret create_ret : Nat) :
    (uart_driver_init g k map_ret create_ret).calls
      = (if map_ret = 0 then
           [Call.printk, Call.ioremap BCM2837_UART_ADDRESS PAGE_SIZE 0, Call.printk]
         else if create_ret = 0 then
           [Call.printk, Call.ioremap BCM2837_UART_ADDRESS PAGE_SIZE map_ret, Call.printk,
            Call.proc_create 0, Call.iounmap map_ret, Call.printk]
         else
           [Call.printk, Call.ioremap BCM2837_UART_ADDRESS PAGE_SIZE map_ret, Call.printk,
            Call.proc_create create_ret, Call.printk]) := by
  by_cases hm : map_ret = 0
  · subst hm
    simp [uart_driver_init]
  · by_cases hc : create_ret = 0
    · subst hc
      simp [uart_driver_init, hm]
    · simp [uart_driver_init, hm, hc]

end UartDriver
